import Mathlib

/-!
Shallow embedding of `scripts/update_trends.py` (repository XHSViral).

Conventions of the embedding:
* Python floats are idealised as exact numbers: all weight arithmetic in the
  pipeline is over `ℚ`; the one transcendental step, `0.5 ** (days/half_life)`
  in `decay_weight`, is modelled with `Real.rpow` and the result is brought
  back to `ℚ` by the 4-decimal rounding the source applies immediately after.
* Python's `round(x, n)` rounds half-to-even on floats; the embedding uses
  round-half-up (`round` of Mathlib).  The two agree except at exact ties
  `x * 10^n + 1/2 ∈ ℤ`, and no property proved below sits on such a tie.
* A Python `dict` record is a structure of `Option` fields; a missing field is
  `none`.  A raised exception (`KeyError` from `item["keyword"]`,
  aborting the run) is `none` in an `Option`-valued function.
* `random.uniform` draws are passed in as explicit parameters (`rands`,
  `jitter`), and `TODAY` / `REGION` / file and HTTP contents are parameters,
  so every run is a pure function of its inputs.
* Python's `list.sort` is a stable sort; a stable sort for a total preorder is
  extensionally unique, so it is embedded as `List.insertionSort` (stable)
  with the corresponding non-strict "comes weakly before" relation,
  `reverse=True` included in the relation.
-/

namespace UpdateTrends

open List

/-- Calendar date, as Python's `datetime.date`; compared lexicographically. -/
structure Date where
  year : Int
  month : Int
  day : Int
deriving DecidableEq, Repr

/-- `a < b` on dates (lexicographic), as Python compares `datetime.date`. -/
def Date.ltb (a b : Date) : Bool :=
  a.year < b.year ||
    (a.year == b.year &&
      (a.month < b.month || (a.month == b.month && a.day < b.day)))

/-- `a <= b` on dates. -/
def Date.leb (a b : Date) : Bool := a == b || Date.ltb a b

/-- Gregorian leap-year rule, as `datetime` uses. -/
def isLeapYear (y : Int) : Bool := (y % 4 == 0 && y % 100 != 0) || y % 400 == 0

/-- Number of days of month `m` in year `y`. -/
def daysInMonth (y m : Int) : Int :=
  if m == 2 then (if isLeapYear y then 29 else 28)
  else if m == 4 || m == 6 || m == 9 || m == 11 then 30
  else 31

/-- Decimal digit value of a character, if it is a digit. -/
def digitVal (c : Char) : Option Int :=
  if c.isDigit then some ((c.toNat : Int) - 48) else none

/-- `datetime.date.fromisoformat`: accepts exactly `YYYY-MM-DD` denoting a
valid calendar date (year at least 1); anything else raises, i.e. `none`. -/
def parseIsoDate (s : String) : Option Date :=
  match s.toList with
  | [y1, y2, y3, y4, h1, m1, m2, h2, d1, d2] =>
    if h1 == '-' && h2 == '-' then do
      let a ← digitVal y1
      let b ← digitVal y2
      let c ← digitVal y3
      let d ← digitVal y4
      let e ← digitVal m1
      let f ← digitVal m2
      let g ← digitVal d1
      let h ← digitVal d2
      let y := a * 1000 + b * 100 + c * 10 + d
      let mo := e * 10 + f
      let da := g * 10 + h
      if 1 ≤ y && 1 ≤ mo && mo ≤ 12 && 1 ≤ da && da ≤ daysInMonth y mo then
        some ⟨y, mo, da⟩
      else none
    else none
  | _ => none

/-- Zero-padded decimal rendering, for `date.isoformat`. -/
def padNum (n : Int) (w : Nat) : String :=
  let s := toString n
  if s.length < w then String.mk (List.replicate (w - s.length) '0') ++ s else s

/-- `date.isoformat()`. -/
def Date.toIso (d : Date) : String :=
  padNum d.year 4 ++ "-" ++ padNum d.month 2 ++ "-" ++ padNum d.day 2

/-- One record of the trends pipeline: a Python dict with these keys; a key
that may be absent is an `Option` that may be `none`. -/
structure TrendRecord where
  keyword : Option String := none
  weight : Option ℚ := none
  category : Option String := none
  decay_days : Option ℚ := none
  priority : Option ℚ := none
  sensitive_hint : Option Bool := none
  safe_replacement : Option String := none
  expires_at : Option String := none
deriving DecidableEq, Repr

/-- The persisted snapshot `{week_of, region, items}` (`region` optional on
load, `old.get("region", ...)`). -/
structure Snapshot where
  week_of : Option String := none
  region : Option String := none
  items : List TrendRecord := []
deriving DecidableEq, Repr

/-- `MAX_PER_CATEGORY = 12`. -/
def MAX_PER_CATEGORY : Nat := 12

/-- `MIN_W = 0.78`. -/
def MIN_W : ℚ := 78 / 100

/-- `MAX_W = 0.96`. -/
def MAX_W : ℚ := 96 / 100

/-- `SENSITIVE_MAP`, in the source's (insertion) iteration order. -/
def SENSITIVE_MAP : List (String × String) :=
  [("减脂", "健康餐"), ("减肥", "塑形"), ("抽奖", "福利"),
   ("丰胸", "改善身材"), ("投资", "理财思路")]

/-- `clamp(x, lo, hi) = max(lo, min(hi, x))`. -/
def clamp (x lo hi : ℚ) : ℚ := max lo (min hi x)

/-- Python's substring test `needle in hay` on the underlying character
lists. -/
def subList (needle : List Char) : List Char → Bool
  | [] => needle.isEmpty
  | c :: rest => needle.isPrefixOf (c :: rest) || subList needle rest

/-- Python's `needle in hay` for strings. -/
def pyIn (needle hay : String) : Bool := subList needle.toList hay.toList

/-- Python's `str.lower()` (the keywords involved are Chinese or ASCII, where
per-character lowering is exact). -/
def pyLower (s : String) : String := String.mk (s.toList.map Char.toLower)

/-- Python's `str.strip()` (strip leading/trailing whitespace). -/
def pyStrip (s : String) : String :=
  String.mk (((s.toList.dropWhile Char.isWhitespace).reverse.dropWhile
    Char.isWhitespace).reverse)

/-- Python truthiness of an optional string (`None` and `""` are falsy). -/
def truthyStr : Option String → Bool
  | none => false
  | some s => !(s == "")

/-- `round(x, n)` on a rational. -/
def roundq (x : ℚ) (n : Nat) : ℚ := ((round (x * 10 ^ n) : Int) : ℚ) / 10 ^ n

/-- `round(x, n)` on a real, landing in `ℚ` (every float is rational). -/
noncomputable def roundr (x : ℝ) (n : Nat) : ℚ :=
  ((round (x * 10 ^ n) : Int) : ℚ) / 10 ^ n

/-- `decay_weight(w, days, half_life)`:
`clamp(round(w * 0.5 ** (days / half_life), 4), MIN_W - 0.2, 0.99)`.
(The source defaults are `days=7, half_life=10`; callers below always pass
both.  Python raises `ZeroDivisionError` for `half_life = 0`; in `ℚ`,
`days / 0 = 0`, a case no caller and no theorem below relies on.) -/
noncomputable def decay_weight (w days half_life : ℚ) : ℚ :=
  clamp (roundr ((w : ℝ) * (1 / 2 : ℝ) ^ ((days / half_life : ℚ) : ℝ)) 4)
    (MIN_W - 2 / 10) (99 / 100)

/-- `season_boost(keyword)`, with the ambient `TODAY` made explicit. -/
def season_boost (today : Date) (keyword : String) : ℚ :=
  let k := pyLower keyword
  let m := today.month
  let b1 : ℚ :=
    if (m == 10 || m == 11 || m == 12) &&
        (["秋冬", "秋季", "冬季", "年末", "清单"].any fun t => pyIn t k) then
      8 / 100
    else 0
  let b2 : ℚ := b1 +
    (if Date.leb ⟨today.year, 10, 20⟩ today &&
        Date.leb today ⟨today.year, 11, 15⟩ &&
        (["双十一", "大促", "预售", "清单", "攻略"].any fun t => pyIn t keyword) then
      12 / 100
    else 0)
  let b3 : ℚ := b2 +
    (if Date.leb ⟨today.year, 12, 1⟩ today &&
        Date.leb today ⟨today.year + 1, 1, 1⟩ &&
        (["圣诞", "跨年", "派对", "礼物"].any fun t => pyIn t k) then
      10 / 100
    else 0)
  let b4 : ℚ := b3 +
    (if ((Date.leb ⟨today.year, 8, 15⟩ today &&
          Date.leb today ⟨today.year, 9, 30⟩) ||
         (Date.leb ⟨today.year, 2, 10⟩ today &&
          Date.leb today ⟨today.year, 3, 10⟩)) &&
        (["开学季", "校园", "通勤", "收纳", "清单"].any fun t => pyIn t keyword) then
      8 / 100
    else 0)
  min b4 (2 / 10)

/-- `region_boost(category, keyword)`, with the ambient `REGION` explicit. -/
def region_boost (region : String) (category : String) (keyword : String) : ℚ :=
  let k := pyLower keyword
  if region == "MY" &&
      (category == "food" || category == "home" || pyIn "咖啡" k ||
        pyIn "短途" keyword || pyIn "周末" keyword) then 4 / 100
  else if region == "SG" &&
      (category == "fitness" || category == "fashion" || pyIn "收纳" keyword ||
        pyIn "通勤" keyword) then 4 / 100
  else if region == "CN" &&
      (pyIn "平替" keyword || pyIn "清单" keyword || pyIn "测评" keyword) then
    4 / 100
  else 0

/-- `categorize(kw)`. -/
def categorize (kw : String) : String :=
  let k := pyLower kw
  if pyIn "ootd" k || pyIn "穿搭" kw || pyIn "搭配" kw || pyIn "大衣" kw ||
      pyIn "靴" kw || pyIn "羽绒" kw then "fashion"
  else if ["粉底", "底妆", "精华", "护肤", "口红", "眼影", "腮红", "修容", "发色",
      "护发", "防晒"].any (fun t => pyIn t kw) then "beauty"
  else if ["咖啡", "料理", "早餐", "宵夜", "餐", "菜谱", "食谱", "烘焙", "美食",
      "奶茶"].any (fun t => pyIn t kw) then "food"
  else if ["跑步", "健身", "力量", "瑜伽", "打卡", "HIIT", "普拉提",
      "马拉松"].any (fun t => pyIn t kw) then "fitness"
  else if ["旅行", "vlog", "露营", "出行", "攻略", "机票", "酒店", "短途",
      "周末"].any (fun t => pyIn t kw) then "travel"
  else if ["猫", "狗", "宠物", "毛孩子", "铲屎"].any (fun t => pyIn t kw) then "pet"
  else if ["双十一", "大促", "预售", "清单", "好物", "必买"].any
      (fun t => pyIn t kw) then "shopping"
  else if pyIn "清单" kw || pyIn "攻略" kw then "shopping"
  else "mixed"

/-- The scan of a sensitive-term table against keyword `kw`: on each substring
match set `sensitive_hint = True` and `safe_replacement` to the mapped term
(a later match overwrites an earlier one). -/
def scanSens (kw : String) (l : List (String × String)) (it : TrendRecord) :
    TrendRecord :=
  l.foldl
    (fun acc kv =>
      if pyIn kv.1 kw then
        { acc with sensitive_hint := some true, safe_replacement := some kv.2 }
      else acc)
    it

/-- The `for k, v in SENSITIVE_MAP.items()` loop inside `ensure_fields`. -/
def applySensitive (kw : String) (it : TrendRecord) : TrendRecord :=
  scanSens kw SENSITIVE_MAP it

/-- `ensure_fields(item)`: set defaults for `decay_days`, `priority`,
`sensitive_hint`, then scan the keyword against `SENSITIVE_MAP`.  A missing
`keyword` raises `KeyError` (the scan reads `item["keyword"]`), aborting the
run: `none`.  (In Python the `setdefault` mutations precede the raise, but the
record is unobservable after the run aborts.) -/
def ensure_fields (item : TrendRecord) : Option TrendRecord :=
  match item.keyword with
  | none => none
  | some kw =>
    some (applySensitive kw
      { item with
        decay_days := some (item.decay_days.getD 10),
        priority := some (item.priority.getD 1),
        sensitive_hint := some (item.sensitive_hint.getD false) })

/-- `normalize_keyword(item)`: if `sensitive_hint` and `safe_replacement` are
both truthy, replace the whole keyword by the safe term, reset the hint and
pop the transient field. -/
def normalize_keyword (item : TrendRecord) : TrendRecord :=
  if item.sensitive_hint.getD false && truthyStr item.safe_replacement then
    { item with
      keyword := item.safe_replacement,
      sensitive_hint := some false,
      safe_replacement := none }
  else item

/-- The list comprehension `[ensure_fields(x) for x in candi.get("items", [])]`
of `main`: element-wise `ensure_fields`, the first `KeyError` aborting the
run. -/
def ensureAll : List TrendRecord → Option (List TrendRecord)
  | [] => some []
  | x :: xs => do
    let y ← ensure_fields x
    let ys ← ensureAll xs
    some (y :: ys)

/-- `set(x["keyword"] for x in kept)` of `main`, as the ordered list of looked
up keywords (membership agrees with the Python set; `x["keyword"]` would raise
on a record without a keyword). -/
def keywordsOf : List TrendRecord → Option (List String)
  | [] => some []
  | r :: rest => do
    let k ← r.keyword
    let ks ← keywordsOf rest
    some (k :: ks)

/-- One iteration of the old-item loop of `main` (lines 175-185): run
`ensure_fields`, drop the record if `expires_at` is truthy, parses, and is
strictly before today (parse failures are swallowed), otherwise decay the
weight.  `none` = the run aborts; `some none` = record dropped;
`some (some r)` = record kept as `r`. -/
noncomputable def keepOldItem (today : Date) (it0 : TrendRecord) :
    Option (Option TrendRecord) := do
  let it ← ensure_fields it0
  let keep : TrendRecord :=
    { it with
      weight := some (decay_weight (it.weight.getD (85 / 100)) 7
        (it.decay_days.getD 10)) }
  match it.expires_at with
  | none => some (some keep)
  | some exp =>
    if exp == "" then some (some keep)
    else
      match parseIsoDate exp with
      | none => some (some keep)
      | some d => if Date.ltb d today then some none else some (some keep)

/-- The old-item loop of `main`: build `kept` in order. -/
noncomputable def buildKept (today : Date) :
    List TrendRecord → Option (List TrendRecord)
  | [] => some []
  | it :: rest => do
    let o ← keepOldItem today it
    let ks ← buildKept today rest
    match o with
    | none => some ks
    | some r => some (r :: ks)

/-- The category buckets: `defaultdict(list)` with Python's insertion-ordered
keys, as an association list. -/
abbrev Buckets := List (String × List TrendRecord)

/-- `buckets[cat]` for reading (a missing key reads as the empty bucket;
keys are unique, so first match is the match). -/
def bucketGet : Buckets → String → List TrendRecord
  | [], _ => []
  | p :: ps, c => if p.1 == c then p.2 else bucketGet ps c

/-- `buckets[cat].append(r)`: append to the bucket, creating it at the end of
the key order if absent. -/
def bucketAppend : Buckets → String → TrendRecord → Buckets
  | [], c, r => [(c, [r])]
  | p :: ps, c, r =>
    if p.1 == c then (p.1, p.2 ++ [r]) :: ps else p :: bucketAppend ps c r

/-- All records across all buckets, in bucket key order. -/
def allBucketItems (bs : Buckets) : List TrendRecord := (bs.map Prod.snd).flatten

/-- Lines 209-210 of `main`: the admission-time seasonal re-boost, clamp and
2-decimal rounding of the weight (only the weight changes). -/
def boostWeight (today : Date) (kw : String) (item : TrendRecord) :
    TrendRecord :=
  { item with
    weight := some (roundq (clamp
      (item.weight.getD (85 / 100) +
        (if 0 < season_boost today kw then (2 : ℚ) / 100 else 0) + 1 / 100)
      MIN_W MAX_W) 2) }

/-- One iteration of the admission loop of `main` (lines 202-213): normalize,
skip on duplicate keyword, re-boost + round the weight, admit only below
capacity.  State is `(buckets, existing)`. -/
def admitStep (today : Date) (st : Buckets × List String) (item0 : TrendRecord) :
    Option (Buckets × List String) := do
  let it1 ← ensure_fields item0
  let item := normalize_keyword it1
  match item.keyword with
  | none => none
  | some kw =>
    if kw ∈ st.2 then some st
    else
      let cat := item.category.getD "misc"
      let item := boostWeight today kw item
      if (bucketGet st.1 cat).length < MAX_PER_CATEGORY then
        some (bucketAppend st.1 cat item, st.2 ++ [kw])
      else some st

/-- The whole admission loop. -/
def admitAll (today : Date) :
    Buckets × List String → List TrendRecord → Option (Buckets × List String)
  | st, [] => some st
  | st, c :: rest => do
    let st' ← admitStep today st c
    admitAll today st' rest

/-- `sort_key(x)` of `main`, the per-element jitter draw made explicit. -/
def sort_key (jit : ℚ) (x : TrendRecord) : ℚ :=
  x.weight.getD (85 / 100) + (4 / 100) * x.priority.getD 1 + jit

/-- "Comes weakly before" for the candidate sort: descending by `sort_key`,
ties kept in original order (`list.sort` is stable). -/
def candRel : TrendRecord × ℚ → TrendRecord × ℚ → Prop :=
  fun a b => sort_key b.2 b.1 ≤ sort_key a.2 a.1

instance : DecidableRel candRel := fun a b =>
  inferInstanceAs (Decidable (_ ≤ _))

/-- `candidates.sort(key=sort_key, reverse=True)`, the jitter of the `i`-th
list element being `jitter i`. -/
def sortCandidates (jitter : Nat → ℚ) (cands : List TrendRecord) :
    List TrendRecord :=
  (List.insertionSort candRel
    (cands.enum.map fun p => (p.2, jitter p.1))).map Prod.fst

/-- "Comes weakly before" for the final per-bucket sort: descending
lexicographically by `(weight, priority)`, ties stable. -/
def bucketRel : TrendRecord → TrendRecord → Prop :=
  fun a b =>
    b.weight.getD (85 / 100) < a.weight.getD (85 / 100) ∨
      (b.weight.getD (85 / 100) = a.weight.getD (85 / 100) ∧
        b.priority.getD 1 ≤ a.priority.getD 1)

instance : DecidableRel bucketRel := fun a b =>
  inferInstanceAs (Decidable (_ ∨ _))

/-- Lines 216-219 of `main`: per-bucket descending sort, truncate to
`MAX_PER_CATEGORY`, concatenate in bucket key order. -/
def finalItems (bs : Buckets) : List TrendRecord :=
  (bs.map fun p =>
    (List.insertionSort bucketRel p.2).take MAX_PER_CATEGORY).flatten

/-- `fetch_openhot_xhs()` after the HTTP layer: `titles` are the `title`
fields of `data["data"]` (a missing title contributing `""`), `rands i` is the
`i`-th `random.uniform(0.0, 0.08)` draw. -/
def fetchItems (today : Date) (region : String) (rands : Nat → ℚ) :
    List String → Nat → List TrendRecord
  | [], _ => []
  | t :: ts, i =>
    let title := pyStrip t
    if title == "" then fetchItems today region rands ts i
    else
      let cat := categorize title
      let base_w : ℚ := 84 / 100 + rands i
      let w := base_w + season_boost today title + region_boost region cat title
      { keyword := some title,
        weight := some (roundq (clamp w MIN_W MAX_W) 2),
        category := some cat,
        decay_days := some 7,
        priority := some 2 } :: fetchItems today region rands ts (i + 1)

/-- `main()` as a pure function: `TODAY`, `REGION`, the two loaded JSON files,
the fetched feed items and the jitter stream are parameters; the returned
snapshot is what gets written to `xhs_trends.json`; `none` means the run
aborts with an uncaught exception. -/
noncomputable def mainRun (today : Date) (region : String)
    (candiItems : List TrendRecord) (old : Snapshot)
    (ohItems : List TrendRecord) (jitter : Nat → ℚ) : Option Snapshot := do
  let localCands ← ensureAll candiItems
  let candidates := if ohItems.isEmpty then localCands else localCands ++ ohItems
  let kept ← buildKept today old.items
  let existing ← keywordsOf kept
  let sorted := sortCandidates jitter candidates
  let buckets0 := kept.foldl
    (fun bs it => bucketAppend bs (it.category.getD "misc") it) ([] : Buckets)
  let st ← admitAll today (buckets0, existing) sorted
  some { week_of := some (Date.toIso today),
         region := some (if region == "" then old.region.getD "GLOBAL" else region),
         items := finalItems st.1 }

/-! ### Basic lemmas about the record normaliser -/

theorem scanSens_keyword (kw : String) (l : List (String × String))
    (it : TrendRecord) : (scanSens kw l it).keyword = it.keyword := by
  induction l generalizing it with
  | nil => rfl
  | cons kv rest ih =>
    simp only [scanSens, List.foldl_cons]
    split <;> exact ih _

theorem scanSens_category (kw : String) (l : List (String × String))
    (it : TrendRecord) : (scanSens kw l it).category = it.category := by
  induction l generalizing it with
  | nil => rfl
  | cons kv rest ih =>
    simp only [scanSens, List.foldl_cons]
    split <;> exact ih _

theorem scanSens_weight (kw : String) (l : List (String × String))
    (it : TrendRecord) : (scanSens kw l it).weight = it.weight := by
  induction l generalizing it with
  | nil => rfl
  | cons kv rest ih =>
    simp only [scanSens, List.foldl_cons]
    split <;> exact ih _

theorem scanSens_priority (kw : String) (l : List (String × String))
    (it : TrendRecord) : (scanSens kw l it).priority = it.priority := by
  induction l generalizing it with
  | nil => rfl
  | cons kv rest ih =>
    simp only [scanSens, List.foldl_cons]
    split <;> exact ih _

theorem scanSens_decay_days (kw : String) (l : List (String × String))
    (it : TrendRecord) : (scanSens kw l it).decay_days = it.decay_days := by
  induction l generalizing it with
  | nil => rfl
  | cons kv rest ih =>
    simp only [scanSens, List.foldl_cons]
    split <;> exact ih _

theorem scanSens_expires_at (kw : String) (l : List (String × String))
    (it : TrendRecord) : (scanSens kw l it).expires_at = it.expires_at := by
  induction l generalizing it with
  | nil => rfl
  | cons kv rest ih =>
    simp only [scanSens, List.foldl_cons]
    split <;> exact ih _

/-- The scan's effect on the two sensitivity fields: the last matching entry
wins; no match leaves them untouched. -/
theorem scanSens_sens (kw : String) (l : List (String × String))
    (it : TrendRecord) :
    ((scanSens kw l it).sensitive_hint, (scanSens kw l it).safe_replacement) =
      match (l.filter fun kv => pyIn kv.1 kw).getLast? with
      | some kv => (some true, some kv.2)
      | none => (it.sensitive_hint, it.safe_replacement) := by
  induction l generalizing it with
  | nil => rfl
  | cons kv rest ih =>
    by_cases h : pyIn kv.1 kw = true
    · have hstep : scanSens kw (kv :: rest) it =
          scanSens kw rest
            { it with sensitive_hint := some true,
                      safe_replacement := some kv.2 } := by
        simp [scanSens, List.foldl_cons, h]
      rw [hstep, ih]
      simp only [List.filter_cons, h, if_true]
      cases hrest : (rest.filter fun e => pyIn e.1 kw) with
      | nil => simp
      | cons a as =>
        rw [List.getLast?_cons_cons]
        cases hg : (a :: as).getLast? with
        | some kv2 => simp
        | none => exact absurd hg (by simp)
    · have hstep : scanSens kw (kv :: rest) it = scanSens kw rest it := by
        simp [scanSens, List.foldl_cons, h]
      rw [hstep, ih]
      simp only [List.filter_cons, h, if_false, Bool.false_eq_true]

theorem ensure_fields_eq_some {it0 it : TrendRecord} {kw : String}
    (hkw : it0.keyword = some kw) (h : ensure_fields it0 = some it) :
    it = applySensitive kw
      { it0 with
        keyword := some kw,
        decay_days := some (it0.decay_days.getD 10),
        priority := some (it0.priority.getD 1),
        sensitive_hint := some (it0.sensitive_hint.getD false) } := by
  simp only [ensure_fields, hkw, Option.some.injEq] at h
  exact h.symm

theorem ensure_fields_none_iff (it0 : TrendRecord) :
    ensure_fields it0 = none ↔ it0.keyword = none := by
  unfold ensure_fields
  cases it0.keyword <;> simp

theorem ensure_fields_keyword {it0 it : TrendRecord}
    (h : ensure_fields it0 = some it) : it.keyword = it0.keyword := by
  cases hkw : it0.keyword with
  | none => simp [ensure_fields, hkw] at h
  | some kw =>
    rw [ensure_fields_eq_some hkw h, applySensitive, scanSens_keyword]

theorem ensure_fields_category {it0 it : TrendRecord}
    (h : ensure_fields it0 = some it) : it.category = it0.category := by
  cases hkw : it0.keyword with
  | none => simp [ensure_fields, hkw] at h
  | some kw =>
    rw [ensure_fields_eq_some hkw h, applySensitive, scanSens_category]

theorem ensure_fields_weight {it0 it : TrendRecord}
    (h : ensure_fields it0 = some it) : it.weight = it0.weight := by
  cases hkw : it0.keyword with
  | none => simp [ensure_fields, hkw] at h
  | some kw =>
    rw [ensure_fields_eq_some hkw h, applySensitive, scanSens_weight]

theorem ensure_fields_expires_at {it0 it : TrendRecord}
    (h : ensure_fields it0 = some it) : it.expires_at = it0.expires_at := by
  cases hkw : it0.keyword with
  | none => simp [ensure_fields, hkw] at h
  | some kw =>
    rw [ensure_fields_eq_some hkw h, applySensitive, scanSens_expires_at]

/-- After `ensure_fields`, the two sensitivity fields are determined by the
table scan on the record's own keyword. -/
theorem ensure_fields_sens {it0 it : TrendRecord} {kw : String}
    (hkw : it0.keyword = some kw) (h : ensure_fields it0 = some it) :
    (it.sensitive_hint, it.safe_replacement) =
      match (SENSITIVE_MAP.filter fun kv => pyIn kv.1 kw).getLast? with
      | some kv => (some true, some kv.2)
      | none => (some (it0.sensitive_hint.getD false), it0.safe_replacement) := by
  rw [ensure_fields_eq_some hkw h, applySensitive, scanSens_sens]

theorem normalize_keyword_frame (it : TrendRecord) :
    (normalize_keyword it).category = it.category ∧
    (normalize_keyword it).weight = it.weight ∧
    (normalize_keyword it).priority = it.priority ∧
    (normalize_keyword it).decay_days = it.decay_days ∧
    (normalize_keyword it).expires_at = it.expires_at := by
  unfold normalize_keyword
  split <;> exact ⟨rfl, rfl, rfl, rfl, rfl⟩

/-- Every replacement value in the sensitive table is a non-empty string. -/
theorem sensitive_map_values_truthy :
    ∀ kv ∈ SENSITIVE_MAP, truthyStr (some kv.2) = true := by decide

/-- A record that arrives with no preset `safe_replacement` leaves the
normaliser (`ensure_fields` then `normalize_keyword`) with none either. -/
theorem normalized_safe_replacement_none {it0 it : TrendRecord}
    (hrep : it0.safe_replacement = none) (h : ensure_fields it0 = some it) :
    (normalize_keyword it).safe_replacement = none := by
  cases hkw : it0.keyword with
  | none => exact absurd h (by simp [ensure_fields, hkw])
  | some kw =>
    have hs := ensure_fields_sens hkw h
    cases hlast : (SENSITIVE_MAP.filter fun kv => pyIn kv.1 kw).getLast? with
    | some kv =>
      rw [hlast] at hs
      have hhint : it.sensitive_hint = some true := congrArg Prod.fst hs
      have hrep' : it.safe_replacement = some kv.2 := congrArg Prod.snd hs
      have hkv : kv ∈ SENSITIVE_MAP :=
        List.mem_of_mem_filter (List.mem_of_getLast?_eq_some hlast)
      have htruthy := sensitive_map_values_truthy kv hkv
      unfold normalize_keyword
      rw [hhint, hrep']
      simp [htruthy]
    | none =>
      rw [hlast] at hs
      have hrep' : it.safe_replacement = none := by
        have := congrArg Prod.snd hs
        simpa [hrep] using this
      unfold normalize_keyword
      split <;> simp_all

theorem fetchItems_keyword_category (today : Date) (region : String)
    (rands : Nat → ℚ) :
    ∀ (titles : List String) (i : Nat) (r : TrendRecord),
      r ∈ fetchItems today region rands titles i →
      ∃ t, r.keyword = some t ∧ r.category = some (categorize t) := by
  intro titles
  induction titles with
  | nil => intro i r h; simp [fetchItems] at h
  | cons t ts ih =>
    intro i r h
    simp only [fetchItems] at h
    split at h
    · exact ih i r h
    · rcases List.mem_cons.mp h with h' | h'
      · exact ⟨pyStrip t, by rw [h'], by rw [h']⟩
      · exact ih (i + 1) r h'

/-- C10: sensitive substitution never changes a record's `category`,
`weight`, `priority` or `decay_days` (`normalize_keyword` touches only
`keyword`, `sensitive_hint`, `safe_replacement`); `ensure_fields` never
changes `category`, `keyword` or `weight`; and every feed item's `category`
is `categorize` of its original (pre-substitution) keyword. -/
theorem C10_substitution_frame :
    (∀ it : TrendRecord,
      (normalize_keyword it).category = it.category ∧
      (normalize_keyword it).weight = it.weight ∧
      (normalize_keyword it).priority = it.priority ∧
      (normalize_keyword it).decay_days = it.decay_days) ∧
    (∀ it0 it : TrendRecord, ensure_fields it0 = some it →
      it.category = it0.category ∧ it.keyword = it0.keyword ∧
        it.weight = it0.weight) ∧
    (∀ (today : Date) (region : String) (rands : Nat → ℚ)
        (titles : List String) (i : Nat) (r : TrendRecord),
      r ∈ fetchItems today region rands titles i →
      ∃ t, r.keyword = some t ∧ r.category = some (categorize t)) := by
  refine ⟨fun it => ?_,
    fun it0 it h =>
      ⟨ensure_fields_category h, ensure_fields_keyword h, ensure_fields_weight h⟩,
    fun today region rands titles i r h =>
      fetchItems_keyword_category today region rands titles i r h⟩
  have h := normalize_keyword_frame it
  exact ⟨h.1, h.2.1, h.2.2.1, h.2.2.2.1⟩

/-- Witness for C10 at concrete inputs: a sensitive record whose keyword was
already substituted keeps category, weight, priority and decay days; the feed
item built from the title `"咖啡清单"` carries `categorize` of that title. -/
theorem C10_substitution_frame_witness :
    ((normalize_keyword
        { keyword := some "减脂餐", weight := some 1, category := some "food",
          priority := some 1, decay_days := some 10,
          sensitive_hint := some true,
          safe_replacement := some "健康餐" }).category = some "food" ∧
      (normalize_keyword
        { keyword := some "减脂餐", weight := some 1, category := some "food",
          priority := some 1, decay_days := some 10,
          sensitive_hint := some true,
          safe_replacement := some "健康餐" }).weight = some 1) ∧
    (∃ r t,
      fetchItems ⟨2026, 6, 15⟩ "GLOBAL" (fun _ => 1 / 100) ["咖啡清单"] 0 =
        [r] ∧
      r.keyword = some t ∧ r.category = some (categorize t)) := by
  constructor
  · exact ⟨(C10_substitution_frame.1 _).1, (C10_substitution_frame.1 _).2.1⟩
  · obtain ⟨r, hr⟩ :
        ∃ r, fetchItems ⟨2026, 6, 15⟩ "GLOBAL" (fun _ => 1 / 100)
          ["咖啡清单"] 0 = [r] := ⟨_, rfl⟩
    obtain ⟨t, h1, h2⟩ :=
      C10_substitution_frame.2.2 ⟨2026, 6, 15⟩ "GLOBAL" (fun _ => 1 / 100)
        ["咖啡清单"] 0 r (by rw [hr]; exact List.mem_singleton.mpr rfl)
    exact ⟨r, t, hr, h1, h2⟩

/-- C8: when the keyword matches sensitive terms, `ensure_fields` sets
`sensitive_hint = true` and `safe_replacement` to the safe term of the last
matching table entry in iteration order, and `normalize_keyword` then
replaces the entire keyword with that safe term, resetting the hint and
removing the transient field. -/
theorem C8_last_match_full_replacement (it0 : TrendRecord) (kw : String)
    (kv : String × String) (hkw : it0.keyword = some kw)
    (hlast : (SENSITIVE_MAP.filter fun e => pyIn e.1 kw).getLast? = some kv) :
    ∃ it, ensure_fields it0 = some it ∧
      it.sensitive_hint = some true ∧
      it.safe_replacement = some kv.2 ∧
      (normalize_keyword it).keyword = some kv.2 ∧
      (normalize_keyword it).sensitive_hint = some false ∧
      (normalize_keyword it).safe_replacement = none := by
  have hsome : ∃ it, ensure_fields it0 = some it := by
    cases he : ensure_fields it0 with
    | none => rw [ensure_fields_none_iff] at he; rw [he] at hkw; cases hkw
    | some it => exact ⟨it, rfl⟩
  obtain ⟨it, he⟩ := hsome
  have hs := ensure_fields_sens hkw he
  rw [hlast] at hs
  have hhint : it.sensitive_hint = some true := congrArg Prod.fst hs
  have hrep : it.safe_replacement = some kv.2 := congrArg Prod.snd hs
  have hkv : kv ∈ SENSITIVE_MAP :=
    List.mem_of_mem_filter (List.mem_of_getLast?_eq_some hlast)
  have htr : truthyStr (some kv.2) = true := sensitive_map_values_truthy kv hkv
  refine ⟨it, he, hhint, hrep, ?_, ?_, ?_⟩ <;>
    · unfold normalize_keyword
      rw [hhint, hrep]
      simp [htr]

/-- Witness for C8: `"减脂减肥"` matches both `减脂 → 健康餐` and
`减肥 → 塑形`; the later entry `塑形` wins and becomes the whole keyword. -/
theorem C8_last_match_full_replacement_witness :
    ∃ it, ensure_fields { keyword := some "减脂减肥" } = some it ∧
      it.sensitive_hint = some true ∧
      it.safe_replacement = some "塑形" ∧
      (normalize_keyword it).keyword = some "塑形" ∧
      (normalize_keyword it).sensitive_hint = some false ∧
      (normalize_keyword it).safe_replacement = none :=
  C8_last_match_full_replacement { keyword := some "减脂减肥" } "减脂减肥"
    ("减肥", "塑形") rfl (by decide)

/-- C7: an old record is dropped as expired exactly when `expires_at` is
present, parses as a valid ISO date, and today is strictly after it; with a
present but unparsable `expires_at` the record is kept and its weight is
still decayed. -/
theorem C7_expiry_iff (today : Date) (it0 it : TrendRecord)
    (h : ensure_fields it0 = some it) :
    (keepOldItem today it0 = some none ↔
      ∃ s d, it0.expires_at = some s ∧ parseIsoDate s = some d ∧
        Date.ltb d today = true) ∧
    (∀ s, it0.expires_at = some s → parseIsoDate s = none →
      keepOldItem today it0 = some (some
        { it with weight := some (decay_weight (it.weight.getD (85 / 100)) 7
            (it.decay_days.getD 10)) })) := by
  have hexp := ensure_fields_expires_at h
  simp only [keepOldItem, h, Option.bind_eq_bind, Option.some_bind]
  rw [← hexp]
  cases hx : it.expires_at with
  | none =>
    constructor
    · constructor
      · intro hcontra; cases hcontra
      · rintro ⟨s, d, hs, -, -⟩; simp at hs
    · intro s hs; simp at hs
  | some exp =>
    by_cases hemp : (exp == "") = true
    · have hexp0 : exp = "" := by simpa using hemp
      subst hexp0
      constructor
      · simp only [hemp, if_true]
        constructor
        · intro hcontra; cases hcontra
        · rintro ⟨s, d, hs, hp, -⟩
          cases Option.some.inj hs
          cases hp
      · intro s hs hp
        cases Option.some.inj hs
        simp [hemp]
    · simp only [hemp, Bool.false_eq_true, if_false]
      cases hp : parseIsoDate exp with
      | none =>
        constructor
        · constructor
          · intro hcontra; cases hcontra
          · rintro ⟨s, d, hs, hps, -⟩
            cases Option.some.inj hs
            rw [hp] at hps
            cases hps
        · intro s hs _
          cases Option.some.inj hs
          rfl
      | some d =>
        constructor
        · by_cases hlt : Date.ltb d today = true
          · simp only [hlt, if_true]
            exact ⟨fun _ => ⟨exp, d, rfl, hp, hlt⟩, fun _ => trivial⟩
          · simp only [hlt, Bool.false_eq_true, if_false]
            constructor
            · intro hcontra; cases hcontra
            · rintro ⟨s, d', hs, hps, hlt'⟩
              cases Option.some.inj hs
              rw [hp] at hps
              cases Option.some.inj hps
              exact absurd hlt' hlt
        · intro s hs hps
          cases Option.some.inj hs
          rw [hp] at hps
          cases hps

/-- Witness for C7: `expires_at = "not-a-date"` does not parse, the record is
kept and decayed. -/
theorem C7_expiry_iff_witness :
    keepOldItem ⟨2026, 6, 15⟩
        { keyword := some "k", expires_at := some "not-a-date" } =
      some (some
        { keyword := some "k", expires_at := some "not-a-date",
          decay_days := some 10, priority := some 1,
          sensitive_hint := some false,
          weight := some (decay_weight (85 / 100) 7 10) }) := by
  have h := (C7_expiry_iff ⟨2026, 6, 15⟩
    { keyword := some "k", expires_at := some "not-a-date" }
    { keyword := some "k", expires_at := some "not-a-date",
      decay_days := some 10, priority := some 1,
      sensitive_hint := some false } rfl).2 "not-a-date" rfl (by decide)
  exact h

/-- C6: a candidate whose (normalised) category bucket already holds
`MAX_PER_CATEGORY` records is dropped entirely: the buckets and the retained
keyword set come out unchanged, whatever the candidate's weight. -/
theorem C6_full_bucket_rejects (today : Date) (bs : Buckets) (ex : List String)
    (item0 it1 : TrendRecord) (kw : String)
    (h1 : ensure_fields item0 = some it1)
    (hkw : (normalize_keyword it1).keyword = some kw)
    (hnew : kw ∉ ex)
    (hfull : MAX_PER_CATEGORY ≤
      (bucketGet bs ((normalize_keyword it1).category.getD "misc")).length) :
    admitStep today (bs, ex) item0 = some (bs, ex) := by
  simp only [admitStep, h1, Option.bind_eq_bind, Option.some_bind]
  rw [hkw]
  simp only [List.elem_eq_mem, hnew, decide_not]
  rw [if_neg (by simp [hnew]), if_neg (by omega)]

/-- Witness for C6: a bucket of 12 records under `"misc"` rejects a fresh
candidate `"y"` and is left unchanged. -/
theorem C6_full_bucket_rejects_witness :
    admitStep ⟨2026, 6, 15⟩
        ([("misc", List.replicate 12 { keyword := some "x" })], [])
        { keyword := some "y" } =
      some ([("misc", List.replicate 12 { keyword := some "x" })], []) :=
  C6_full_bucket_rejects ⟨2026, 6, 15⟩
    [("misc", List.replicate 12 { keyword := some "x" })] []
    { keyword := some "y" }
    { keyword := some "y", decay_days := some 10, priority := some 1,
      sensitive_hint := some false }
    "y" rfl rfl (by simp) (by decide)

/-- C4 (the code side): a single candidate record without a `keyword` raises
`KeyError` inside `ensure_fields` and the whole run aborts — no output
snapshot is produced, contrary to the spec's per-item fail-soft isolation. -/
theorem C4_missing_keyword_aborts_run :
    mainRun ⟨2026, 6, 15⟩ "GLOBAL" [{ weight := some 1 }] { items := [] } []
      (fun _ => 0) = none := rfl

/-! ### Arithmetic of `decay_weight` -/

theorem round_le_int (y : ℝ) (n : ℤ) (h : y < (n : ℝ) + 1 / 2) :
    round y ≤ n := by
  rw [round_eq]
  have h2 : (⌊y + 1 / 2⌋ : ℤ) < n + 1 := by
    rw [Int.floor_lt]
    push_cast
    linarith
  omega

theorem roundr4_le (x : ℝ) (k : ℤ) (h : x * 10 ^ 4 < (k : ℝ) + 1 / 2) :
    roundr x 4 ≤ (k : ℚ) / 10 ^ 4 := by
  unfold roundr
  have h1 : round (x * 10 ^ 4) ≤ k := round_le_int _ _ (by linarith)
  gcongr

theorem clamp_eq_lo {x lo hi : ℚ} (hx : x ≤ lo) (hlohi : lo ≤ hi) :
    clamp x lo hi = lo := by
  unfold clamp
  rw [min_eq_right (hx.trans hlohi), max_eq_left hx]

theorem clamp_le_of_le {x lo hi w : ℚ} (hx : x ≤ w) (hlo : lo ≤ w) :
    clamp x lo hi ≤ w := by
  unfold clamp
  exact max_le hlo ((min_le_right hi x).trans hx)

theorem halfPow_pos (c : ℝ) : 0 < (1 / 2 : ℝ) ^ c :=
  Real.rpow_pos_of_pos (by norm_num) c

theorem halfPow_lt_one {c : ℝ} (hc : 0 < c) : (1 / 2 : ℝ) ^ c < 1 :=
  Real.rpow_lt_one (by norm_num) (by norm_num) hc

/-- `0.5 ** 0.7 < 0.62` (raise both sides to the 10th power). -/
theorem halfPow_seven_tenths_lt :
    (1 / 2 : ℝ) ^ (((7 : ℚ) / (10 : ℚ) : ℚ) : ℝ) < 62 / 100 := by
  set a := (1 / 2 : ℝ) ^ (((7 : ℚ) / (10 : ℚ) : ℚ) : ℝ) with ha
  have hpos : 0 < a := halfPow_pos _
  have h10 : a ^ (10 : ℕ) = (1 / 2 : ℝ) ^ (7 : ℕ) := by
    rw [ha, ← Real.rpow_natCast ((1 / 2 : ℝ) ^ (((7 : ℚ) / (10 : ℚ) : ℚ) : ℝ)) 10,
      ← Real.rpow_mul (by norm_num : (0 : ℝ) ≤ 1 / 2),
      ← Real.rpow_natCast (1 / 2 : ℝ) 7]
    congr 1
    push_cast
    norm_num
  by_contra hcon
  push_neg at hcon
  have hge : (62 / 100 : ℝ) ^ (10 : ℕ) ≤ a ^ (10 : ℕ) :=
    pow_le_pow_left₀ (by norm_num) hcon 10
  rw [h10] at hge
  norm_num at hge

/-- C9: the legacy record with weight `0.90` and `decay_days = 10`, decayed
with the fixed 7-day constant, lands exactly on the clamp floor
`MIN_W - 0.2 = 0.58`: the raw value `0.9 * 0.5 ** 0.7` is below the floor, so
the floor wins. -/
theorem C9_legacy_decay_hits_floor :
    decay_weight (9 / 10) 7 10 = 58 / 100 ∧
    ((9 / 10 : ℚ) : ℝ) * (1 / 2 : ℝ) ^ (((7 : ℚ) / (10 : ℚ) : ℚ) : ℝ) <
      58 / 100 ∧
    MIN_W - 2 / 10 = 58 / 100 := by
  have ha := halfPow_seven_tenths_lt
  have hpos := halfPow_pos (((7 : ℚ) / (10 : ℚ) : ℚ) : ℝ)
  have h9 : ((9 / 10 : ℚ) : ℝ) = 9 / 10 := by norm_num
  have hprod :
      ((9 / 10 : ℚ) : ℝ) * (1 / 2 : ℝ) ^ (((7 : ℚ) / (10 : ℚ) : ℚ) : ℝ) <
        58 / 100 := by
    rw [h9]
    nlinarith
  refine ⟨?_, hprod, by norm_num [MIN_W]⟩
  unfold decay_weight
  have hlo : MIN_W - 2 / 10 = (58 / 100 : ℚ) := by norm_num [MIN_W]
  rw [hlo]
  apply clamp_eq_lo _ (by norm_num)
  have h58 : (58 / 100 : ℚ) = ((5800 : ℤ) : ℚ) / 10 ^ 4 := by norm_num
  rw [h58]
  apply roundr4_le
  push_cast
  push_cast at hprod
  nlinarith

/-- C3 counterexample: for a weight below the clamp floor the "decayed"
weight comes out strictly larger, so `decay(w, d, hl) <= w` fails for
arbitrary weights: `decay_weight 0.5 7 10 = 0.58 > 0.5`. -/
theorem C3_counterexample :
    decay_weight (1 / 2) 7 10 = 58 / 100 ∧
    ¬ decay_weight (1 / 2) 7 10 ≤ 1 / 2 := by
  have hexp : (0 : ℝ) < (((7 : ℚ) / (10 : ℚ) : ℚ) : ℝ) := by
    exact_mod_cast (by norm_num : (0 : ℚ) < (7 : ℚ) / (10 : ℚ))
  have ha1 := halfPow_lt_one hexp
  have ha0 := halfPow_pos (((7 : ℚ) / (10 : ℚ) : ℚ) : ℝ)
  have h1 : decay_weight (1 / 2) 7 10 = 58 / 100 := by
    unfold decay_weight
    have hlo : MIN_W - 2 / 10 = (58 / 100 : ℚ) := by norm_num [MIN_W]
    rw [hlo]
    apply clamp_eq_lo _ (by norm_num)
    have h58 : (58 / 100 : ℚ) = ((5800 : ℤ) : ℚ) / 10 ^ 4 := by norm_num
    rw [h58]
    apply roundr4_le
    have hc : ((1 / 2 : ℚ) : ℝ) = 1 / 2 := by norm_num
    rw [hc]
    push_cast
    nlinarith
  exact ⟨h1, by rw [h1]; norm_num⟩

/-- C3 amended: decay is monotone non-increasing for the weights the pipeline
can actually store — any 4-decimal rational at or above the clamp floor
`MIN_W - 0.2` — for positive elapsed days and positive half-life.  (Equality
can occur at the clamp floor, and also away from it when the rounding step
returns `w` itself, so the "equality only at the floor" clause is dropped.) -/
theorem C3_decay_monotone_amended (w d hl : ℚ) (k : ℤ) (hd : 0 < d)
    (hhl : 0 < hl) (hw : MIN_W - 2 / 10 ≤ w) (hlat : w * 10 ^ 4 = (k : ℚ)) :
    decay_weight w d hl ≤ w := by
  have hwpos : (0 : ℚ) < w := lt_of_lt_of_le (by norm_num [MIN_W]) hw
  have hexp : (0 : ℝ) < ((d / hl : ℚ) : ℝ) := by
    exact_mod_cast div_pos hd hhl
  have ha1 : (1 / 2 : ℝ) ^ ((d / hl : ℚ) : ℝ) < 1 := halfPow_lt_one hexp
  have ha0 : (0 : ℝ) < (1 / 2 : ℝ) ^ ((d / hl : ℚ) : ℝ) := halfPow_pos _
  unfold decay_weight
  apply clamp_le_of_le _ hw
  have hk : ((w : ℝ)) * 10 ^ 4 = (k : ℝ) := by
    have := congrArg (fun q : ℚ => (q : ℝ)) hlat
    push_cast at this
    linarith
  have hble : roundr ((w : ℝ) * (1 / 2 : ℝ) ^ ((d / hl : ℚ) : ℝ)) 4 ≤
      (k : ℚ) / 10 ^ 4 := by
    apply roundr4_le
    have hle : (w : ℝ) * (1 / 2 : ℝ) ^ ((d / hl : ℚ) : ℝ) ≤ (w : ℝ) :=
      mul_le_of_le_one_right (by exact_mod_cast hwpos.le) ha1.le
    nlinarith
  have hkw : ((k : ℚ)) / 10 ^ 4 = w := by
    rw [div_eq_iff (by norm_num : (10 : ℚ) ^ 4 ≠ 0)]
    linarith
  exact hble.trans_eq hkw

/-- Witness for the amended C3 at `w = 0.58`, `d = 7`, `hl = 10`. -/
theorem C3_decay_monotone_amended_witness :
    decay_weight (58 / 100) 7 10 ≤ 58 / 100 :=
  C3_decay_monotone_amended (58 / 100) 7 10 5800 (by norm_num) (by norm_num)
    (by norm_num [MIN_W]) (by norm_num)

/-! ### Bucket structure lemmas -/

theorem subperm_append_both {α : Type} {l₁ l₂ l₁' l₂' : List α}
    (h1 : l₁ <+~ l₁') (h2 : l₂ <+~ l₂') : l₁ ++ l₂ <+~ l₁' ++ l₂' := by
  obtain ⟨m1, hp1, hs1⟩ := h1
  obtain ⟨m2, hp2, hs2⟩ := h2
  exact ⟨m1 ++ m2, hp1.append hp2, hs1.append hs2⟩

theorem subperm_map {α β : Type} (f : α → β) {l₁ l₂ : List α}
    (h : l₁ <+~ l₂) : l₁.map f <+~ l₂.map f := by
  obtain ⟨m, hp, hs⟩ := h
  exact ⟨m.map f, hp.map f, hs.map f⟩

theorem subperm_nodup {α : Type} {l₁ l₂ : List α} (h : l₁ <+~ l₂)
    (h2 : l₂.Nodup) : l₁.Nodup := by
  obtain ⟨m, hp, hs⟩ := h
  exact hp.nodup (hs.nodup h2)

theorem allBucketItems_nil : allBucketItems [] = [] := rfl

theorem allBucketItems_cons (p : String × List TrendRecord) (ps : Buckets) :
    allBucketItems (p :: ps) = p.2 ++ allBucketItems ps := by
  simp [allBucketItems]

theorem allBucketItems_bucketAppend (bs : Buckets) (c : String)
    (r : TrendRecord) :
    allBucketItems (bucketAppend bs c r) ~ r :: allBucketItems bs := by
  induction bs with
  | nil => simp [bucketAppend, allBucketItems]
  | cons p ps ih =>
    rw [bucketAppend]
    split
    · rw [allBucketItems_cons, allBucketItems_cons]
      calc (p.2 ++ [r]) ++ allBucketItems ps
          = p.2 ++ ([r] ++ allBucketItems ps) := by rw [List.append_assoc]
        _ ~ r :: (p.2 ++ allBucketItems ps) := List.perm_middle
    · rw [allBucketItems_cons, allBucketItems_cons]
      calc p.2 ++ allBucketItems (bucketAppend ps c r)
          ~ p.2 ++ (r :: allBucketItems ps) := List.Perm.append_left p.2 ih
        _ ~ r :: (p.2 ++ allBucketItems ps) := List.perm_middle

theorem bucketAppend_keys_sub (bs : Buckets) (c : String) (r : TrendRecord) :
    ∀ k ∈ (bucketAppend bs c r).map Prod.fst,
      k ∈ bs.map Prod.fst ∨ k = c := by
  induction bs with
  | nil => intro k hk; simp [bucketAppend] at hk; right; exact hk
  | cons p ps ih =>
    intro k hk
    rw [bucketAppend] at hk
    split at hk
    · simp only [List.map_cons, List.mem_cons] at hk ⊢
      rcases hk with h | h
      · exact Or.inl (Or.inl h)
      · exact Or.inl (Or.inr h)
    · simp only [List.map_cons, List.mem_cons] at hk ⊢
      rcases hk with h | h
      · exact Or.inl (Or.inl h)
      · rcases ih k h with h' | h'
        · exact Or.inl (Or.inr h')
        · exact Or.inr h'

/-- The buckets' shape invariant: keys are pairwise distinct and every record
sits in the bucket of its (defaulted) category. -/
def bucketsWF (bs : Buckets) : Prop :=
  (bs.map Prod.fst).Nodup ∧
    ∀ p ∈ bs, ∀ x ∈ p.2, x.category.getD "misc" = p.1

theorem bucketsWF_nil : bucketsWF [] := by
  constructor
  · exact List.nodup_nil
  · intro p hp; simp at hp

theorem bucketAppend_WF {bs : Buckets} {c : String} {x : TrendRecord}
    (h : bucketsWF bs) (hx : x.category.getD "misc" = c) :
    bucketsWF (bucketAppend bs c x) := by
  induction bs with
  | nil =>
    refine ⟨by simp [bucketAppend], ?_⟩
    intro p hp y hy
    rw [bucketAppend, List.mem_singleton] at hp
    subst hp
    simp only [List.mem_singleton] at hy
    subst hy
    exact hx
  | cons p ps ih =>
    obtain ⟨hnd, hcat⟩ := h
    rw [List.map_cons, List.nodup_cons] at hnd
    rw [bucketAppend]
    split
    · rename_i hpc
      have hpc' : p.1 = c := by simpa using hpc
      constructor
      · rw [List.map_cons]
        exact List.nodup_cons.mpr ⟨hnd.1, hnd.2⟩
      · intro q hq y hy
        rcases List.mem_cons.mp hq with h' | h'
        · subst h'
          rcases List.mem_append.mp hy with h'' | h''
          · exact hcat p (List.mem_cons_self _ _) y h''
          · rw [List.mem_singleton] at h''
            subst h''
            rw [hx, hpc']
        · exact hcat q (List.mem_cons_of_mem _ h') y hy
    · rename_i hpc
      have hpc' : ¬ p.1 = c := by simpa using hpc
      have ihWF := ih ⟨hnd.2, fun q hq y hy =>
        hcat q (List.mem_cons_of_mem _ hq) y hy⟩
      constructor
      · rw [List.map_cons]
        refine List.nodup_cons.mpr ⟨?_, ihWF.1⟩
        intro hmem
        rcases bucketAppend_keys_sub ps c x p.1 hmem with h' | h'
        · exact hnd.1 h'
        · exact hpc' h'
      · intro q hq y hy
        rcases List.mem_cons.mp hq with h' | h'
        · subst h'
          exact hcat q (List.mem_cons_self _ _) y hy
        · exact ihWF.2 q h' y hy

/-! ### Characterising the run's phases -/

/-- A kept old record is exactly an `ensure_fields` output with its weight
decayed. -/
theorem keepOldItem_char {today : Date} {it0 r : TrendRecord}
    (h : keepOldItem today it0 = some (some r)) :
    ∃ it, ensure_fields it0 = some it ∧
      r = { it with weight := some (decay_weight (it.weight.getD (85 / 100)) 7
        (it.decay_days.getD 10)) } := by
  cases he : ensure_fields it0 with
  | none => rw [keepOldItem, he] at h; cases h
  | some it =>
    refine ⟨it, rfl, ?_⟩
    rw [keepOldItem, he] at h
    simp only [Option.bind_eq_bind, Option.some_bind] at h
    split at h
    · exact (Option.some.inj (Option.some.inj h)).symm
    · split at h
      · exact (Option.some.inj (Option.some.inj h)).symm
      · split at h
        · exact (Option.some.inj (Option.some.inj h)).symm
        · split at h
          · simp at h
          · exact (Option.some.inj (Option.some.inj h)).symm

/-- The kept list's keywords form a sublist of the old items' keywords. -/
theorem buildKept_keywords_sublist {today : Date} {items kept : List TrendRecord}
    (h : buildKept today items = some kept) :
    kept.map TrendRecord.keyword <+ items.map TrendRecord.keyword := by
  induction items generalizing kept with
  | nil =>
    rw [buildKept] at h
    cases Option.some.inj h
    exact Sublist.refl _
  | cons it rest ih =>
    rw [buildKept] at h
    cases ho : keepOldItem today it with
    | none => rw [ho] at h; cases h
    | some o =>
      rw [ho] at h
      simp only [Option.bind_eq_bind, Option.some_bind] at h
      cases hks : buildKept today rest with
      | none => rw [hks] at h; cases h
      | some ks =>
        rw [hks] at h
        simp only [Option.some_bind] at h
        cases o with
        | none =>
          cases Option.some.inj h
          exact (ih hks).cons _
        | some r =>
          cases Option.some.inj h
          rw [List.map_cons, List.map_cons]
          obtain ⟨it1, he, hr⟩ := keepOldItem_char ho
          have : r.keyword = it.keyword := by
            rw [hr]
            show it1.keyword = it.keyword
            exact ensure_fields_keyword he
          rw [this]
          exact (ih hks).cons₂ _

/-- Every kept old record comes from some old record via `keepOldItem`. -/
theorem buildKept_mem {today : Date} {items kept : List TrendRecord}
    (h : buildKept today items = some kept) :
    ∀ r ∈ kept, ∃ it0 ∈ items, keepOldItem today it0 = some (some r) := by
  induction items generalizing kept with
  | nil =>
    rw [buildKept] at h
    cases Option.some.inj h
    intro r hr
    simp at hr
  | cons it rest ih =>
    rw [buildKept] at h
    cases ho : keepOldItem today it with
    | none => rw [ho] at h; cases h
    | some o =>
      rw [ho] at h
      simp only [Option.bind_eq_bind, Option.some_bind] at h
      cases hks : buildKept today rest with
      | none => rw [hks] at h; cases h
      | some ks =>
        rw [hks] at h
        simp only [Option.some_bind] at h
        cases o with
        | none =>
          cases Option.some.inj h
          intro r hr
          obtain ⟨it0, h1, h2⟩ := ih hks r hr
          exact ⟨it0, List.mem_cons_of_mem _ h1, h2⟩
        | some r0 =>
          cases Option.some.inj h
          intro r hr
          rcases List.mem_cons.mp hr with h' | h'
          · subst h'
            exact ⟨it, List.mem_cons_self _ _, ho⟩
          · obtain ⟨it0, h1, h2⟩ := ih hks r h'
            exact ⟨it0, List.mem_cons_of_mem _ h1, h2⟩

/-- The keyword-set phase succeeds exactly by listing each record's keyword. -/
theorem keywordsOf_eq {kept : List TrendRecord} {ex : List String}
    (h : keywordsOf kept = some ex) :
    kept.map TrendRecord.keyword = ex.map some := by
  induction kept generalizing ex with
  | nil =>
    rw [keywordsOf] at h
    cases Option.some.inj h
    rfl
  | cons r rest ih =>
    rw [keywordsOf] at h
    cases hk : r.keyword with
    | none => rw [hk] at h; cases h
    | some k =>
      rw [hk] at h
      simp only [Option.bind_eq_bind, Option.some_bind] at h
      cases hks : keywordsOf rest with
      | none => rw [hks] at h; cases h
      | some ks =>
        rw [hks] at h
        simp only [Option.some_bind] at h
        cases Option.some.inj h
        rw [List.map_cons, hk, List.map_cons, ih hks]

/-- Every locally loaded candidate is an `ensure_fields` image of a raw
candidate. -/
theorem ensureAll_mem {xs ys : List TrendRecord} (h : ensureAll xs = some ys) :
    ∀ y ∈ ys, ∃ x ∈ xs, ensure_fields x = some y := by
  induction xs generalizing ys with
  | nil =>
    rw [ensureAll] at h
    cases Option.some.inj h
    intro y hy
    simp at hy
  | cons x rest ih =>
    rw [ensureAll] at h
    cases he : ensure_fields x with
    | none => rw [he] at h; cases h
    | some y0 =>
      rw [he] at h
      simp only [Option.bind_eq_bind, Option.some_bind] at h
      cases hr : ensureAll rest with
      | none => rw [hr] at h; cases h
      | some ys0 =>
        rw [hr] at h
        simp only [Option.some_bind] at h
        cases Option.some.inj h
        intro y hy
        rcases List.mem_cons.mp hy with h' | h'
        · subst h'
          exact ⟨x, List.mem_cons_self _ _, he⟩
        · obtain ⟨x', h1, h2⟩ := ih hr y h'
          exact ⟨x', List.mem_cons_of_mem _ h1, h2⟩

/-- The jittered candidate sort is a permutation of the candidate list. -/
theorem sortCandidates_perm (jitter : Nat → ℚ) (cands : List TrendRecord) :
    sortCandidates jitter cands ~ cands := by
  unfold sortCandidates
  calc (List.insertionSort candRel
          (cands.enum.map fun p => (p.2, jitter p.1))).map Prod.fst
      ~ ((cands.enum.map fun p => (p.2, jitter p.1)).map Prod.fst) :=
        (List.perm_insertionSort candRel _).map Prod.fst
    _ = cands := by
        rw [List.map_map]
        have : (Prod.fst ∘ fun p : Nat × TrendRecord => (p.2, jitter p.1)) =
            Prod.snd := rfl
        rw [this, List.enum_map_snd]

/-- Exhaustive case analysis of one admission step: either the state is
unchanged (duplicate keyword or full bucket), or the normalised,
weight-boosted record is appended to its category bucket and its keyword is
recorded. -/
theorem admitStep_cases {today : Date} {st st' : Buckets × List String}
    {item0 : TrendRecord} (h : admitStep today st item0 = some st') :
    st' = st ∨
    ∃ it1 kw,
      ensure_fields item0 = some it1 ∧
      (normalize_keyword it1).keyword = some kw ∧
      kw ∉ st.2 ∧
      (bucketGet st.1 ((normalize_keyword it1).category.getD "misc")).length <
        MAX_PER_CATEGORY ∧
      st' = (bucketAppend st.1 ((normalize_keyword it1).category.getD "misc")
        (boostWeight today kw (normalize_keyword it1)),
        st.2 ++ [kw]) := by
  cases he : ensure_fields item0 with
  | none => rw [admitStep, he] at h; cases h
  | some it1 =>
    rw [admitStep, he] at h
    simp only [Option.bind_eq_bind, Option.some_bind] at h
    split at h
    · exact Option.noConfusion h
    · rename_i kw hkw
      by_cases hmem : kw ∈ st.2
      · rw [if_pos hmem] at h
        exact Or.inl (Option.some.inj h).symm
      · rw [if_neg hmem] at h
        by_cases hcap :
            (bucketGet st.1 ((normalize_keyword it1).category.getD "misc")).length <
              MAX_PER_CATEGORY
        · rw [if_pos hcap] at h
          exact Or.inr ⟨it1, kw, rfl, hkw, hmem, hcap, (Option.some.inj h).symm⟩
        · rw [if_neg hcap] at h
          exact Or.inl (Option.some.inj h).symm

/-! ### Invariants carried through the admission loop -/

theorem boostWeight_keyword (today : Date) (kw : String) (it : TrendRecord) :
    (boostWeight today kw it).keyword = it.keyword := rfl

theorem boostWeight_category (today : Date) (kw : String) (it : TrendRecord) :
    (boostWeight today kw it).category = it.category := rfl

theorem boostWeight_safe_replacement (today : Date) (kw : String)
    (it : TrendRecord) :
    (boostWeight today kw it).safe_replacement = it.safe_replacement := rfl

theorem mem_allBucketItems {bs : Buckets} {p : String × List TrendRecord}
    {r : TrendRecord} (hp : p ∈ bs) (hr : r ∈ p.2) :
    r ∈ allBucketItems bs := by
  unfold allBucketItems
  rw [mem_flatten]
  exact ⟨p.2, mem_map_of_mem Prod.snd hp, hr⟩

theorem mem_finalItems {bs : Buckets} {r : TrendRecord}
    (h : r ∈ finalItems bs) : ∃ p ∈ bs, r ∈ p.2 := by
  unfold finalItems at h
  rw [mem_flatten] at h
  obtain ⟨l, hl, hrl⟩ := h
  rw [mem_map] at hl
  obtain ⟨p, hp, rfl⟩ := hl
  exact ⟨p, hp, (mem_insertionSort bucketRel).mp (mem_of_mem_take hrl)⟩

theorem finalItems_subperm (bs : Buckets) :
    finalItems bs <+~ allBucketItems bs := by
  induction bs with
  | nil => exact ⟨[], Perm.refl _, Sublist.refl _⟩
  | cons p ps ih =>
    have h1 : (insertionSort bucketRel p.2).take MAX_PER_CATEGORY <+~ p.2 :=
      Subperm.trans (Sublist.subperm (take_sublist _ _))
        (perm_insertionSort bucketRel p.2).subperm
    have h2 : finalItems (p :: ps) =
        (insertionSort bucketRel p.2).take MAX_PER_CATEGORY ++ finalItems ps := by
      simp [finalItems]
    rw [h2, allBucketItems_cons]
    exact subperm_append_both h1 ih

theorem countP_finalItems_le {bs : Buckets} (hWF : bucketsWF bs) (c : String) :
    (finalItems bs).countP (fun r => r.category.getD "misc" == c) ≤
      MAX_PER_CATEGORY := by
  induction bs with
  | nil => simp [finalItems]
  | cons p ps ih =>
    obtain ⟨hnd, hcat⟩ := hWF
    rw [map_cons, nodup_cons] at hnd
    have hWF' : bucketsWF ps :=
      ⟨hnd.2, fun q hq y hy => hcat q (mem_cons_of_mem _ hq) y hy⟩
    have hfin : finalItems (p :: ps) =
        (insertionSort bucketRel p.2).take MAX_PER_CATEGORY ++ finalItems ps := by
      simp [finalItems]
    rw [hfin, countP_append]
    by_cases hpc : p.1 = c
    · have hrest : (finalItems ps).countP
          (fun r => r.category.getD "misc" == c) = 0 := by
        rw [countP_eq_zero]
        intro r hr
        obtain ⟨q, hq, hrq⟩ := mem_finalItems hr
        have hrcat := hcat q (mem_cons_of_mem _ hq) r hrq
        have hqc : q.1 ≠ c := by
          intro hq1
          exact hnd.1 (by rw [hpc, ← hq1]; exact mem_map_of_mem Prod.fst hq)
        simp [hrcat, hqc]
      rw [hrest]
      have hlen : ((insertionSort bucketRel p.2).take
          MAX_PER_CATEGORY).countP (fun r => r.category.getD "misc" == c) ≤
          ((insertionSort bucketRel p.2).take MAX_PER_CATEGORY).length :=
        countP_le_length _
      have htake : ((insertionSort bucketRel p.2).take MAX_PER_CATEGORY).length ≤
          MAX_PER_CATEGORY := by
        rw [length_take]
        exact min_le_left _ _
      omega
    · have hchunk : ((insertionSort bucketRel p.2).take
          MAX_PER_CATEGORY).countP (fun r => r.category.getD "misc" == c) = 0 := by
        rw [countP_eq_zero]
        intro r hr
        have hrp : r ∈ p.2 :=
          (mem_insertionSort bucketRel).mp (mem_of_mem_take hr)
        have hrcat := hcat p (mem_cons_self _ _) r hrp
        simp [hrcat, hpc]
      rw [hchunk]
      simpa using ih hWF'

/-- The uniqueness invariant of the admission state: bucket keywords are
pairwise distinct, present, and all recorded in `existing`. -/
def kwUnique (bs : Buckets) (ex : List String) : Prop :=
  ((allBucketItems bs).map TrendRecord.keyword).Nodup ∧
    ∀ r ∈ allBucketItems bs, ∃ k, r.keyword = some k ∧ k ∈ ex

theorem admitStep_kwUnique {today : Date} {st st' : Buckets × List String}
    {item0 : TrendRecord} (h : admitStep today st item0 = some st')
    (hinv : kwUnique st.1 st.2) : kwUnique st'.1 st'.2 := by
  rcases admitStep_cases h with rfl | ⟨it1, kw, he, hkw, hmem, hcap, rfl⟩
  · exact hinv
  · obtain ⟨hnd, hall⟩ := hinv
    have hik : (boostWeight today kw (normalize_keyword it1)).keyword = some kw := by
      rw [boostWeight_keyword]; exact hkw
    have hperm := allBucketItems_bucketAppend st.1
      ((normalize_keyword it1).category.getD "misc")
      (boostWeight today kw (normalize_keyword it1))
    constructor
    · refine (Perm.nodup_iff (hperm.map TrendRecord.keyword)).mpr ?_
      rw [map_cons, hik]
      refine nodup_cons.mpr ⟨?_, hnd⟩
      intro hsome
      rw [mem_map] at hsome
      obtain ⟨r, hr, hrkw⟩ := hsome
      obtain ⟨k, hk1, hk2⟩ := hall r hr
      rw [hk1] at hrkw
      cases Option.some.inj hrkw
      exact hmem hk2
    · intro r hr
      rcases mem_cons.mp (hperm.mem_iff.mp hr) with h' | h'
      · subst h'
        exact ⟨kw, hik, by simp⟩
      · obtain ⟨k, hk1, hk2⟩ := hall r h'
        exact ⟨k, hk1, by simp [hk2]⟩

theorem admitStep_WF {today : Date} {st st' : Buckets × List String}
    {item0 : TrendRecord} (h : admitStep today st item0 = some st')
    (hWF : bucketsWF st.1) : bucketsWF st'.1 := by
  rcases admitStep_cases h with rfl | ⟨it1, kw, he, hkw, hmem, hcap, rfl⟩
  · exact hWF
  · exact bucketAppend_WF hWF rfl

/-- No record in any bucket carries a `safe_replacement`. -/
def noRepl (bs : Buckets) : Prop :=
  ∀ r ∈ allBucketItems bs, r.safe_replacement = none

/-- The per-candidate condition under which normalisation leaves no
`safe_replacement`: either none was preset, or the keyword is sensitive (then
substitution clears the freshly set field). -/
def replSafe (x : TrendRecord) : Prop :=
  x.safe_replacement = none ∨
    ∃ kw0, x.keyword = some kw0 ∧
      (SENSITIVE_MAP.filter fun kv => pyIn kv.1 kw0) ≠ []

/-- Generalisation of `normalized_safe_replacement_none`: it is enough that
either no `safe_replacement` was preset or the keyword is sensitive. -/
theorem normalized_safe_replacement_none' {it0 it : TrendRecord}
    (h : ensure_fields it0 = some it) (hcase : replSafe it0) :
    (normalize_keyword it).safe_replacement = none := by
  cases hkw : it0.keyword with
  | none => exact absurd h (by simp [ensure_fields, hkw])
  | some kw =>
    have hs := ensure_fields_sens hkw h
    cases hlast : (SENSITIVE_MAP.filter fun kv => pyIn kv.1 kw).getLast? with
    | some kv =>
      rw [hlast] at hs
      have hhint : it.sensitive_hint = some true := congrArg Prod.fst hs
      have hrep' : it.safe_replacement = some kv.2 := congrArg Prod.snd hs
      have hkv : kv ∈ SENSITIVE_MAP :=
        List.mem_of_mem_filter (List.mem_of_getLast?_eq_some hlast)
      have htruthy := sensitive_map_values_truthy kv hkv
      unfold normalize_keyword
      rw [hhint, hrep']
      simp [htruthy]
    | none =>
      rw [hlast] at hs
      have hfilnil : (SENSITIVE_MAP.filter fun kv => pyIn kv.1 kw) = [] :=
        getLast?_eq_none_iff.mp hlast
      have hrep0 : it0.safe_replacement = none := by
        rcases hcase with h0 | ⟨kw0, hkw0, hne⟩
        · exact h0
        · rw [hkw] at hkw0
          cases Option.some.inj hkw0
          exact absurd hfilnil hne
      have hrep' : it.safe_replacement = none := by
        have := congrArg Prod.snd hs
        simpa [hrep0] using this
      unfold normalize_keyword
      split <;> simp_all

theorem admitStep_noRepl {today : Date} {st st' : Buckets × List String}
    {item0 : TrendRecord} (h : admitStep today st item0 = some st')
    (hitem : replSafe item0) (hinv : noRepl st.1) : noRepl st'.1 := by
  rcases admitStep_cases h with rfl | ⟨it1, kw, he, hkw, hmem, hcap, rfl⟩
  · exact hinv
  · intro r hr
    have hperm := allBucketItems_bucketAppend st.1
      ((normalize_keyword it1).category.getD "misc")
      (boostWeight today kw (normalize_keyword it1))
    rcases mem_cons.mp (hperm.mem_iff.mp hr) with h' | h'
    · subst h'
      rw [boostWeight_safe_replacement]
      exact normalized_safe_replacement_none' he hitem
    · exact hinv r h'

theorem admitAll_kwUnique {today : Date} :
    ∀ {cands : List TrendRecord} {st st' : Buckets × List String},
      admitAll today st cands = some st' → kwUnique st.1 st.2 →
      kwUnique st'.1 st'.2 := by
  intro cands
  induction cands with
  | nil =>
    intro st st' h hinv
    rw [admitAll] at h
    cases Option.some.inj h
    exact hinv
  | cons c rest ih =>
    intro st st' h hinv
    rw [admitAll] at h
    cases hstep : admitStep today st c with
    | none => rw [hstep] at h; cases h
    | some st1 =>
      rw [hstep] at h
      simp only [Option.bind_eq_bind, Option.some_bind] at h
      exact ih h (admitStep_kwUnique hstep hinv)

theorem admitAll_WF {today : Date} :
    ∀ {cands : List TrendRecord} {st st' : Buckets × List String},
      admitAll today st cands = some st' → bucketsWF st.1 →
      bucketsWF st'.1 := by
  intro cands
  induction cands with
  | nil =>
    intro st st' h hWF
    rw [admitAll] at h
    cases Option.some.inj h
    exact hWF
  | cons c rest ih =>
    intro st st' h hWF
    rw [admitAll] at h
    cases hstep : admitStep today st c with
    | none => rw [hstep] at h; cases h
    | some st1 =>
      rw [hstep] at h
      simp only [Option.bind_eq_bind, Option.some_bind] at h
      exact ih h (admitStep_WF hstep hWF)

theorem admitAll_noRepl {today : Date} :
    ∀ {cands : List TrendRecord} {st st' : Buckets × List String},
      admitAll today st cands = some st' → (∀ x ∈ cands, replSafe x) →
      noRepl st.1 → noRepl st'.1 := by
  intro cands
  induction cands with
  | nil =>
    intro st st' h _ hinv
    rw [admitAll] at h
    cases Option.some.inj h
    exact hinv
  | cons c rest ih =>
    intro st st' h hsafe hinv
    rw [admitAll] at h
    cases hstep : admitStep today st c with
    | none => rw [hstep] at h; cases h
    | some st1 =>
      rw [hstep] at h
      simp only [Option.bind_eq_bind, Option.some_bind] at h
      exact ih h (fun x hx => hsafe x (mem_cons_of_mem _ hx))
        (admitStep_noRepl hstep (hsafe c (mem_cons_self _ _)) hinv)

theorem foldl_bucketAppend_perm (kept : List TrendRecord) (bs : Buckets) :
    allBucketItems (kept.foldl
      (fun b it => bucketAppend b (it.category.getD "misc") it) bs) ~
      allBucketItems bs ++ kept := by
  induction kept generalizing bs with
  | nil => simp
  | cons it rest ih =>
    rw [List.foldl_cons]
    calc allBucketItems (rest.foldl _
          (bucketAppend bs (it.category.getD "misc") it))
        ~ allBucketItems (bucketAppend bs (it.category.getD "misc") it) ++
            rest := ih _
      _ ~ (it :: allBucketItems bs) ++ rest :=
          (allBucketItems_bucketAppend bs _ it).append_right rest
      _ ~ allBucketItems bs ++ it :: rest := perm_middle.symm

theorem foldl_bucketAppend_WF (kept : List TrendRecord) (bs : Buckets)
    (h : bucketsWF bs) :
    bucketsWF (kept.foldl
      (fun b it => bucketAppend b (it.category.getD "misc") it) bs) := by
  induction kept generalizing bs with
  | nil => exact h
  | cons it rest ih =>
    rw [List.foldl_cons]
    exact ih _ (bucketAppend_WF h rfl)

/-- Decomposition of a successful run into its phases. -/
theorem mainRun_some_elim {today : Date} {region : String}
    {candi : List TrendRecord} {old : Snapshot} {oh : List TrendRecord}
    {jitter : Nat → ℚ} {out : Snapshot}
    (h : mainRun today region candi old oh jitter = some out) :
    ∃ lc kept ex st,
      ensureAll candi = some lc ∧
      buildKept today old.items = some kept ∧
      keywordsOf kept = some ex ∧
      admitAll today
        (kept.foldl (fun bs it => bucketAppend bs (it.category.getD "misc") it)
          [], ex)
        (sortCandidates jitter (if oh.isEmpty then lc else lc ++ oh)) =
        some st ∧
      out.items = finalItems st.1 := by
  rw [mainRun] at h
  cases h1 : ensureAll candi with
  | none => rw [h1] at h; cases h
  | some lc =>
    rw [h1] at h
    simp only [Option.bind_eq_bind, Option.some_bind] at h
    cases h2 : buildKept today old.items with
    | none => rw [h2] at h; cases h
    | some kept =>
      rw [h2] at h
      simp only [Option.some_bind] at h
      cases h3 : keywordsOf kept with
      | none => rw [h3] at h; cases h
      | some ex =>
        rw [h3] at h
        simp only [Option.some_bind] at h
        cases h4 : admitAll today
            (kept.foldl
              (fun bs it => bucketAppend bs (it.category.getD "misc") it) [],
              ex)
            (sortCandidates jitter (if oh.isEmpty then lc else lc ++ oh)) with
        | none => rw [h4] at h; cases h
        | some st =>
          rw [h4] at h
          simp only [Option.some_bind] at h
          refine ⟨lc, kept, ex, st, rfl, rfl, h3, h4, ?_⟩
          rw [← Option.some.inj h]

/-! ### The snapshot-level claims -/

/-- C5: in any successful run, every category of the output snapshot holds at
most `MAX_PER_CATEGORY` records (a record with a missing `category` counts
for `"misc"`, the bucket it is stored under), whatever the prior snapshot,
candidate list or feed result. -/
theorem C5_capacity_invariant {today : Date} {region : String}
    {candi : List TrendRecord} {old : Snapshot} {oh : List TrendRecord}
    {jitter : Nat → ℚ} {out : Snapshot}
    (hrun : mainRun today region candi old oh jitter = some out)
    (c : String) :
    out.items.countP (fun r => r.category.getD "misc" == c) ≤
      MAX_PER_CATEGORY := by
  obtain ⟨lc, kept, ex, st, h1, h2, h3, h4, hout⟩ := mainRun_some_elim hrun
  have hWF0 := foldl_bucketAppend_WF kept [] bucketsWF_nil
  have hWFN := admitAll_WF h4 hWF0
  rw [hout]
  exact countP_finalItems_le hWFN c

/-- Witness for C5: the empty run produces an empty snapshot, whose `"misc"`
count is within capacity. -/
theorem C5_capacity_invariant_witness :
    (Snapshot.items
        ⟨some (Date.toIso ⟨2026, 6, 15⟩), some "GLOBAL", []⟩).countP
      (fun r => r.category.getD "misc" == "misc") ≤ MAX_PER_CATEGORY :=
  @C5_capacity_invariant ⟨2026, 6, 15⟩ "GLOBAL" [] ⟨none, none, []⟩ []
    (fun _ => 0) ⟨some (Date.toIso ⟨2026, 6, 15⟩), some "GLOBAL", []⟩
    rfl "misc"

/-- C1 counterexample: a prior snapshot that already contains two records
with the same keyword (in different categories) passes both through to the
output — global keyword uniqueness fails for an arbitrary prior snapshot. -/
theorem C1_counterexample :
    ∃ out,
      mainRun ⟨2026, 6, 15⟩ "GLOBAL" []
        ⟨none, none,
          [{ keyword := some "k", category := some "a", decay_days := some 7 },
           { keyword := some "k", category := some "b", decay_days := some 7 }]⟩
        [] (fun _ => 0) = some out ∧
      out.items.map TrendRecord.keyword = [some "k", some "k"] ∧
      ¬ (out.items.map TrendRecord.keyword).Nodup :=
  ⟨_, rfl, rfl, by decide⟩

/-- C1 amended: if the prior snapshot's keywords are pairwise distinct
(which every snapshot this program itself writes satisfies), then the output
snapshot's keywords are globally pairwise distinct, for any candidate list
and feed result. -/
theorem C1_global_uniqueness_amended {today : Date} {region : String}
    {candi : List TrendRecord} {old : Snapshot} {oh : List TrendRecord}
    {jitter : Nat → ℚ} {out : Snapshot}
    (hrun : mainRun today region candi old oh jitter = some out)
    (hold : (old.items.map TrendRecord.keyword).Nodup) :
    (out.items.map TrendRecord.keyword).Nodup := by
  obtain ⟨lc, kept, ex, st, h1, h2, h3, h4, hout⟩ := mainRun_some_elim hrun
  have hkeptkw : kept.map TrendRecord.keyword = ex.map some := keywordsOf_eq h3
  have hkeptnd : (kept.map TrendRecord.keyword).Nodup :=
    (buildKept_keywords_sublist h2).nodup hold
  have hperm0 := foldl_bucketAppend_perm kept []
  have hperm0' : allBucketItems (kept.foldl
      (fun bs it => bucketAppend bs (it.category.getD "misc") it) []) ~ kept := by
    simpa using hperm0
  have hinv0 : kwUnique (kept.foldl
      (fun bs it => bucketAppend bs (it.category.getD "misc") it) []) ex := by
    constructor
    · exact (Perm.nodup_iff (hperm0'.map TrendRecord.keyword)).mpr hkeptnd
    · intro r hr
      have hrk : r ∈ kept := hperm0'.mem_iff.mp hr
      have hmem : r.keyword ∈ ex.map some := by
        rw [← hkeptkw]
        exact mem_map_of_mem TrendRecord.keyword hrk
      rw [mem_map] at hmem
      obtain ⟨k, hk, hk2⟩ := hmem
      exact ⟨k, hk2.symm, hk⟩
  have hinvN := admitAll_kwUnique h4 hinv0
  rw [hout]
  exact subperm_nodup
    (subperm_map TrendRecord.keyword (finalItems_subperm st.1)) hinvN.1

/-- Witness for the amended C1: a run over a one-record prior snapshot keeps
its keywords pairwise distinct. -/
theorem C1_global_uniqueness_amended_witness :
    ((Snapshot.items
        ⟨some (Date.toIso ⟨2026, 6, 15⟩), some "GLOBAL",
          [{ keyword := some "k", category := some "a", decay_days := some 7,
             priority := some 1, sensitive_hint := some false,
             weight := some (decay_weight (85 / 100) 7 7) }]⟩).map
      TrendRecord.keyword).Nodup :=
  @C1_global_uniqueness_amended ⟨2026, 6, 15⟩ "GLOBAL" []
    ⟨none, none,
      [{ keyword := some "k", category := some "a", decay_days := some 7 }]⟩
    [] (fun _ => 0)
    ⟨some (Date.toIso ⟨2026, 6, 15⟩), some "GLOBAL",
      [{ keyword := some "k", category := some "a", decay_days := some 7,
         priority := some 1, sensitive_hint := some false,
         weight := some (decay_weight (85 / 100) 7 7) }]⟩
    rfl (by decide)

/-- C2 counterexample: a prior-snapshot record whose keyword contains a
sensitive term gets `safe_replacement` set by `ensure_fields` but is never
normalised, and a candidate arriving with `safe_replacement` preset (and no
hint) keeps it — both leak the field into the persisted output. -/
theorem C2_counterexample :
    ∃ out,
      mainRun ⟨2026, 6, 15⟩ "GLOBAL"
        [{ keyword := some "x", safe_replacement := some "y" }]
        ⟨none, none,
          [{ keyword := some "减脂餐", category := some "food",
             decay_days := some 7 }]⟩
        [] (fun _ => 0) = some out ∧
      out.items.map TrendRecord.safe_replacement =
        [some "健康餐", some "y"] ∧
      ¬ ∀ r ∈ out.items, r.safe_replacement = none :=
  ⟨_, rfl, rfl, by decide⟩

/-- C2 amended: `safe_replacement` never reaches the output provided no input
record arrives with the field preset and no prior-snapshot record has a
sensitive keyword; candidates with sensitive keywords are safe because
substitution clears the transient field, but the two excluded situations do
leak it (see the counterexample). -/
theorem C2_no_safe_replacement_amended {today : Date} {region : String}
    {candi : List TrendRecord} {old : Snapshot} {oh : List TrendRecord}
    {jitter : Nat → ℚ} {out : Snapshot}
    (hrun : mainRun today region candi old oh jitter = some out)
    (hc : ∀ x ∈ candi, x.safe_replacement = none)
    (hoh : ∀ f ∈ oh, f.safe_replacement = none)
    (hold : ∀ o ∈ old.items, o.safe_replacement = none ∧
      ∀ kw, o.keyword = some kw →
        (SENSITIVE_MAP.filter fun kv => pyIn kv.1 kw) = []) :
    ∀ r ∈ out.items, r.safe_replacement = none := by
  obtain ⟨lc, kept, ex, st, h1, h2, h3, h4, hout⟩ := mainRun_some_elim hrun
  have hkept : ∀ r ∈ kept, r.safe_replacement = none := by
    intro r hr
    obtain ⟨it0, hit0, hko⟩ := buildKept_mem h2 r hr
    obtain ⟨it, he, hre⟩ := keepOldItem_char hko
    obtain ⟨ho1, ho2⟩ := hold it0 hit0
    cases hkw : it0.keyword with
    | none => exact absurd he (by simp [ensure_fields, hkw])
    | some kw =>
      have hs := ensure_fields_sens hkw he
      rw [ho2 kw hkw] at hs
      have hitr : it.safe_replacement = it0.safe_replacement := by
        have := congrArg Prod.snd hs
        simpa using this
      rw [hre]
      show it.safe_replacement = none
      rw [hitr, ho1]
  have hperm0' : allBucketItems (kept.foldl
      (fun bs it => bucketAppend bs (it.category.getD "misc") it) []) ~ kept := by
    simpa using foldl_bucketAppend_perm kept []
  have hinv0 : noRepl (kept.foldl
      (fun bs it => bucketAppend bs (it.category.getD "misc") it) []) :=
    fun r hr => hkept r (hperm0'.mem_iff.mp hr)
  have hcands : ∀ x ∈ sortCandidates jitter (if oh.isEmpty then lc else lc ++ oh),
      replSafe x := by
    intro x hx
    have hx' : x ∈ (if oh.isEmpty then lc else lc ++ oh) :=
      (sortCandidates_perm jitter _).mem_iff.mp hx
    have hx2 : x ∈ lc ∨ x ∈ oh := by
      by_cases hemp : oh.isEmpty <;> simp [hemp] at hx' <;> tauto
    rcases hx2 with hlc | hohm
    · obtain ⟨x0, hx0, hex⟩ := ensureAll_mem h1 x hlc
      cases hkw : x0.keyword with
      | none => exact absurd hex (by simp [ensure_fields, hkw])
      | some kw =>
        have hs := ensure_fields_sens hkw hex
        cases hlast : (SENSITIVE_MAP.filter fun kv => pyIn kv.1 kw).getLast? with
        | some kv =>
          refine Or.inr ⟨kw, ?_, ?_⟩
          · rw [ensure_fields_keyword hex, hkw]
          · intro hnil
            rw [hnil] at hlast
            cases hlast
        | none =>
          left
          rw [hlast] at hs
          have := congrArg Prod.snd hs
          simpa [hc x0 hx0] using this
    · exact Or.inl (hoh x hohm)
  have hinvN := admitAll_noRepl h4 hcands hinv0
  intro r hr
  rw [hout] at hr
  obtain ⟨p, hp, hrp⟩ := mem_finalItems hr
  exact hinvN r (mem_allBucketItems hp hrp)

/-- Witness for the amended C2: one fresh candidate without a preset
`safe_replacement` is admitted and the output record carries none. -/
theorem C2_no_safe_replacement_amended_witness :
    TrendRecord.safe_replacement
      (boostWeight ⟨2026, 6, 15⟩ "x"
        { keyword := some "x", decay_days := some 10, priority := some 1,
          sensitive_hint := some false }) = none :=
  @C2_no_safe_replacement_amended ⟨2026, 6, 15⟩ "GLOBAL"
    [{ keyword := some "x" }] ⟨none, none, []⟩ [] (fun _ => 0)
    ⟨some (Date.toIso ⟨2026, 6, 15⟩), some "GLOBAL",
      [boostWeight ⟨2026, 6, 15⟩ "x"
        { keyword := some "x", decay_days := some 10, priority := some 1,
          sensitive_hint := some false }]⟩
    rfl (by decide) (by simp) (by simp)
    (boostWeight ⟨2026, 6, 15⟩ "x"
      { keyword := some "x", decay_days := some 10, priority := some 1,
        sensitive_hint := some false })
    (mem_cons_self _ _)

end UpdateTrends
